import Mathlib

/-!
Verification of the `hdjson` JSON tokenizer (`src/tokenizer/mod.rs`,
`src/tokenizer/token.rs`) against its specification.

The Rust code is shallowly embedded as follows:
* `std::str::Chars` (the forward character iterator) is a `List Char`;
  Rust's `iter.clone()` is modelled by reusing the same list value
  (lookahead without consumption), exactly as the source does.
* Rust `String` lexemes are modelled as their character sequence
  (`List Char`); `push` is append of one element, `+` is list append,
  `chars().count()` is `List.length`.
* The `i32` column and line counters only ever start at small
  non-negative values and are incremented one by one, so they are
  modelled as `Nat`.
* Every Rust method that mutates `self` becomes a function from
  `Tokenizer` to a pair of its return value and the updated `Tokenizer`.
* Loops whose termination is not structural carry an explicit bound:
  `skip_whitespaces` recurses on a list that mirrors its remaining
  source, and `tokenize` uses `source.length + 1` iterations, which is
  sufficient because a successful `next_token` always consumes at least
  one character (`next_token_shrinks` below).
-/

namespace Hdjson

/-- Token kinds emitted by the tokenizer (`token.rs`, `enum TokenType`).
Payloads are the exact lexeme character sequences. -/
inductive TokenType where
  | ObjectStart
  | ObjectEnd
  | ArrayStart
  | ArrayEnd
  | Comma
  | Colon
  | Integer (text : List Char)
  | Float (text : List Char)
  | String (text : List Char)
  deriving DecidableEq, Repr

/-- A token together with the column of its first character
(`token.rs`, `struct Token`). -/
structure Token where
  token_type : TokenType
  position : Nat
  deriving DecidableEq, Repr

/-- `Token::new` from `token.rs`. -/
def Token.new (token_type : TokenType) (position : Nat) : Token :=
  ⟨token_type, position⟩

/-- The scanner state (`mod.rs`, `struct Tokenizer`). -/
structure Tokenizer where
  source : List Char
  current_col : Nat
  current_line : Nat
  token_start_col : Nat
  current_char : Option Char
  deriving DecidableEq, Repr

/-- `Tokenizer::new` from `mod.rs`. -/
def Tokenizer.new (input : List Char) : Tokenizer :=
  ⟨input, 0, 1, 0, none⟩

/-- Rust char range pattern `'0'..='9'`. -/
def isDigit09 (c : Char) : Bool :=
  '0' ≤ c && c ≤ '9'

/-- The whitespace set skipped by `skip_whitespaces`. -/
def isWs (c : Char) : Bool :=
  c = ' ' || c = '\t' || c = '\n' || c = '\r'

/-- Rust `char::is_control`: the Unicode `Cc` category,
`U+0000 ..= U+001F` and `U+007F ..= U+009F`. -/
def is_control (c : Char) : Bool :=
  c.toNat < 0x20 || (0x7f ≤ c.toNat && c.toNat ≤ 0x9f)

/-- Rust `char::is_ascii_hexdigit`. -/
def is_ascii_hexdigit (c : Char) : Bool :=
  isDigit09 c || ('a' ≤ c && c ≤ 'f') || ('A' ≤ c && c ≤ 'F')

/-- `Tokenizer::next_char`: advance the cursor, bump the column counter
(even at end of input, as the Rust code does), track lines, and record
the character just read. -/
def next_char (t : Tokenizer) : Option Char × Tokenizer :=
  match t.source with
  | [] => (none, { t with current_col := t.current_col + 1, current_char := none })
  | c :: rest =>
      (some c,
       { t with
           source := rest,
           current_col := t.current_col + 1,
           current_line := if c = '\n' then t.current_line + 1 else t.current_line,
           current_char := some c })

/-- The `while let Some(ch) = self.next_char()` loop of
`skip_whitespaces`, with the list mirroring the remaining source
providing structural termination. -/
def skip_whitespaces_go : List Char → Tokenizer → Option Char × Tokenizer
  | [], t => next_char t
  | _ :: l, t =>
    match next_char t with
    | (none, t1) => (none, t1)
    | (some c, t1) => if isWs c then skip_whitespaces_go l t1 else (some c, t1)

/-- `Tokenizer::skip_whitespaces`. -/
def skip_whitespaces (t : Tokenizer) : Option Char × Tokenizer :=
  skip_whitespaces_go t.source t

/-- `Tokenizer::handle_integer`: start from `current_char` (whatever it
is; the Rust code does not require it to be a digit) and extend with the
longest digit run of a cloned iterator, consuming nothing. -/
def handle_integer (t : Tokenizer) : Option (List Char) :=
  match t.current_char with
  | none => none
  | some first_digit => some (first_digit :: t.source.takeWhile isDigit09)

/-- `for _ in 1..char_count { self.next_char(); }` advances the real
cursor `n` times, discarding the characters. -/
def next_char_n : Nat → Tokenizer → Tokenizer
  | 0, t => t
  | n + 1, t => next_char_n n (next_char t).2

/-- `Tokenizer::tokenize_number`.  Every branch of the Rust function is
reproduced, including the fall-through at its end (reached when
`handle_integer` fails after the exponent marker) which returns a
`Float` token. -/
def tokenize_number (t0 : Tokenizer) (positive : Bool) : Option Token × Tokenizer :=
  match handle_integer t0 with
  | none => (none, t0)
  | some number0 =>
    let t1 := next_char_n (number0.length - 1) t0
    match t1.source with
    | [] => (none, t1)
    | next1 :: _ =>
      if next1 ≠ '.' ∧ next1 ≠ 'e' then
        let number := if positive then number0 else '-' :: number0
        (some (Token.new (TokenType.Integer number) t1.token_start_col), t1)
      else
        let is_float := next1 = '.'
        let t2 := (next_char t1).2
        match handle_integer t2 with
        | none => (none, t2)
        | some decimal_part =>
          if decimal_part.length = 1 then (none, t2)
          else
            let number1 := number0 ++ decimal_part
            let t3 := next_char_n (decimal_part.length - 1) t2
            let number2 := if positive then number1 else '-' :: number1
            match t3.source with
            | [] => (none, t3)
            | next2 :: _ =>
              if next2 ≠ 'e' then
                (some (Token.new
                  (if is_float then TokenType.Float number2 else TokenType.Integer number2)
                  t3.token_start_col), t3)
              else
                let t4 := (next_char t3).2
                let signStep : List Char × Tokenizer :=
                  match t4.source with
                  | [] => (number2, t4)
                  | is_signed :: _ =>
                    if is_signed = '-' ∨ is_signed = '+' then
                      (number2 ++ ['e'], (next_char t4).2)
                    else (number2, t4)
                let number3 := signStep.1
                let t5 := signStep.2
                match handle_integer t5 with
                | none => (some (Token.new (TokenType.Float number3) t5.token_start_col), t5)
                | some dp2 =>
                  let number4 := number3 ++ dp2
                  let t6 := next_char_n (dp2.length - 1) t5
                  (some (Token.new
                    (if is_float then TokenType.Float number4 else TokenType.Integer number4)
                    t6.token_start_col), t6)

/-- The `for _ in 0..4` hex-digit loop inside `handle_escapes`. -/
def hex_digits_go : Nat → List Char → Tokenizer → Option (List Char) × Tokenizer
  | 0, escape, t => (some escape, t)
  | n + 1, escape, t =>
    match next_char t with
    | (none, t1) => (none, t1)
    | (some seq_char, t1) =>
      if is_ascii_hexdigit seq_char then hex_digits_go n (escape ++ [seq_char]) t1
      else (none, t1)

/-- `Tokenizer::handle_escapes`. -/
def handle_escapes (t : Tokenizer) : Option (List Char) × Tokenizer :=
  match next_char t with
  | (none, t1) => (none, t1)
  | (some next, t1) =>
    if next = '\"' || next = '\\' || next = '/' || next = 'b' || next = 'f' ||
        next = 'n' || next = 'r' || next = 't' then
      (some ['\\', next], t1)
    else if next = 'u' then
      hex_digits_go 4 ['\\', 'u'] t1
    else
      (none, t1)

/-- Result of the scanning loop inside `tokenize_string`: either an
early `return None` (`failed`) or falling out of the loop with the
accumulated value (`finished`), after which the closing quote is
checked. -/
inductive StringScan where
  | failed
  | finished (string_val : List Char)
  deriving DecidableEq, Repr

/-- The `while let Some(next_char) = iter.next()` loop of
`tokenize_string`.  The first argument is the cloned iterator taken at
loop entry; the real cursor `t` is advanced separately, exactly as in
the Rust code (including the desynchronization that follows a failed
escape). -/
def string_loop : List Char → Nat → List Char → Tokenizer → StringScan × Tokenizer
  | [], _, string_val, t => (.finished string_val, t)
  | c :: iter, skp, string_val, t =>
    if is_control c then (.failed, t)
    else if 0 < skp then string_loop iter (skp - 1) string_val t
    else if c = '\\' then
      let t1 := (next_char t).2
      match handle_escapes t1 with
      | (some escape, t2) => string_loop iter (escape.length - 1) (string_val ++ escape) t2
      | (none, t2) => string_loop iter skp string_val t2
    else if c ≠ '\"' then
      string_loop iter skp (string_val ++ [c]) (next_char t).2
    else
      (.finished string_val, t)

/-- `Tokenizer::tokenize_string`. -/
def tokenize_string (t : Tokenizer) : Option Token × Tokenizer :=
  match string_loop t.source 0 [] t with
  | (.failed, t1) => (none, t1)
  | (.finished string_val, t1) =>
    match next_char t1 with
    | (none, t2) => (none, t2)
    | (some c, t2) =>
      if c = '\"' then
        (some (Token.new (TokenType.String string_val) t2.token_start_col), t2)
      else (none, t2)

/-- `Tokenizer::next_token`: skip whitespace, then dispatch on the first
significant character. -/
def next_token (t : Tokenizer) : Option Token × Tokenizer :=
  match skip_whitespaces t with
  | (none, t1) => (none, t1)
  | (some ch, t1) =>
    if ch = '{' then (some (Token.new TokenType.ObjectStart t1.current_col), t1)
    else if ch = '}' then (some (Token.new TokenType.ObjectEnd t1.current_col), t1)
    else if ch = '[' then (some (Token.new TokenType.ArrayStart t1.current_col), t1)
    else if ch = ']' then (some (Token.new TokenType.ArrayEnd t1.current_col), t1)
    else if ch = ':' then (some (Token.new TokenType.Colon t1.current_col), t1)
    else if ch = ',' then (some (Token.new TokenType.Comma t1.current_col), t1)
    else if isDigit09 ch then
      tokenize_number { t1 with token_start_col := t1.current_col } true
    else if ch = '\"' then
      tokenize_string { t1 with token_start_col := t1.current_col }
    else if ch = '-' then
      let t2 := { t1 with token_start_col := t1.current_col }
      match next_char t2 with
      | (none, t3) => (none, t3)
      | (some _, t3) => tokenize_number t3 false
    else (none, t1)

/-- The `while let Some(token) = self.next_token()` loop of `tokenize`,
bounded by an iteration budget. -/
def tokenize_loop : Nat → Tokenizer → List Token
  | 0, _ => []
  | fuel + 1, t =>
    match next_token t with
    | (some token, t1) => token :: tokenize_loop fuel t1
    | (none, _) => []

/-- `Tokenizer::tokenize`.  The budget `source.length + 1` is enough to
reproduce the unbounded Rust loop because every produced token consumes
at least one source character (`next_token_shrinks`). -/
def tokenize (t : Tokenizer) : List Token :=
  tokenize_loop (t.source.length + 1) t

/-- The scanner state reached after `k` steps of the `tokenize` loop,
used to name the point of the run at which the `k`-th token is
produced. -/
def run_state (t : Tokenizer) : Nat → Tokenizer
  | 0 => t
  | k + 1 => run_state (next_token t).2 k

/-! ## State lemmas

`Synced input t` says the scanner state `t` is the one reached by
consuming a prefix of `input`: the column counter equals the number of
characters consumed so far and `source` is the corresponding suffix.
Every state reachable from `Tokenizer.new input` without reading past
the end of input is synced; reading past the end empties `source`
forever, which is captured by the weaker `SyncedOrDead`. -/

def Synced (input : List Char) (t : Tokenizer) : Prop :=
  t.current_col ≤ input.length ∧ t.source = input.drop t.current_col

def SyncedOrDead (input : List Char) (t : Tokenizer) : Prop :=
  Synced input t ∨ t.source = []

theorem synced_new (input : List Char) : Synced input (Tokenizer.new input) :=
  ⟨Nat.zero_le _, rfl⟩

theorem next_char_source (t : Tokenizer) : (next_char t).2.source = t.source.tail := by
  unfold next_char
  cases t.source <;> rfl

theorem next_char_col (t : Tokenizer) :
    (next_char t).2.current_col = t.current_col + 1 := by
  unfold next_char
  cases t.source <;> rfl

theorem next_char_tsc (t : Tokenizer) :
    (next_char t).2.token_start_col = t.token_start_col := by
  unfold next_char
  cases t.source <;> rfl

theorem next_char_cons {t : Tokenizer} {c : Char} {rest : List Char}
    (h : t.source = c :: rest) :
    next_char t =
      (some c,
       { t with
           source := rest,
           current_col := t.current_col + 1,
           current_line := if c = '\n' then t.current_line + 1 else t.current_line,
           current_char := some c }) := by
  unfold next_char
  rw [h]

theorem next_char_nil {t : Tokenizer} (h : t.source = []) :
    next_char t =
      (none, { t with current_col := t.current_col + 1, current_char := none }) := by
  unfold next_char
  rw [h]

theorem next_char_fst_some {t : Tokenizer} {c : Char}
    (h : (next_char t).1 = some c) : t.source = c :: t.source.tail := by
  cases hs : t.source with
  | nil => rw [next_char_nil hs] at h; exact absurd h (by simp)
  | cons a l =>
    rw [next_char_cons hs] at h
    simp only [Option.some.injEq] at h
    simp [hs, h]

theorem synced_next_char {input : List Char} {t : Tokenizer}
    (hs : Synced input t) {c : Char} {rest : List Char} (hc : t.source = c :: rest) :
    Synced input (next_char t).2 ∧ input[t.current_col]? = some c := by
  obtain ⟨hle, hsrc⟩ := hs
  have hget : input[t.current_col]? = some c := by
    have h0 : (input.drop t.current_col)[0]? = some c := by
      rw [← hsrc, hc]; simp
    rw [List.getElem?_drop, Nat.add_zero] at h0
    exact h0
  refine ⟨⟨?_, ?_⟩, hget⟩
  · rw [next_char_col]
    have hlt : t.current_col < input.length := by
      by_contra hcon
      have hnil : input.drop t.current_col = [] :=
        List.drop_eq_nil_of_le (Nat.le_of_not_lt hcon)
      rw [← hsrc, hc] at hnil
      exact absurd hnil (by simp)
    omega
  · rw [next_char_col, next_char_source, hc]
    have hdr : input.drop (t.current_col + 1) = (input.drop t.current_col).tail := by
      rw [← List.drop_one, List.drop_drop]
    rw [hdr, ← hsrc, hc]

theorem synced_or_dead_next_char {input : List Char} {t : Tokenizer}
    (hs : SyncedOrDead input t) : SyncedOrDead input (next_char t).2 := by
  rcases hs with hs | hdead
  · cases hc : t.source with
    | nil => right; rw [next_char_source, hc]; rfl
    | cons c rest => exact Or.inl (synced_next_char hs hc).1
  · right; rw [next_char_source, hdead]; rfl

theorem next_char_n_source (n : Nat) (t : Tokenizer) :
    (next_char_n n t).source = t.source.drop n := by
  induction n generalizing t with
  | zero => rfl
  | succ n ih =>
    show (next_char_n n (next_char t).2).source = _
    rw [ih, next_char_source, ← List.drop_one, List.drop_drop]
    rw [Nat.add_comm]

theorem next_char_n_col (n : Nat) (t : Tokenizer) :
    (next_char_n n t).current_col = t.current_col + n := by
  induction n generalizing t with
  | zero => rfl
  | succ n ih =>
    show (next_char_n n (next_char t).2).current_col = _
    rw [ih, next_char_col]
    omega

theorem next_char_n_tsc (n : Nat) (t : Tokenizer) :
    (next_char_n n t).token_start_col = t.token_start_col := by
  induction n generalizing t with
  | zero => rfl
  | succ n ih =>
    show (next_char_n n (next_char t).2).token_start_col = _
    rw [ih, next_char_tsc]

theorem synced_next_char_n {input : List Char} {t : Tokenizer}
    (hs : Synced input t) {n : Nat} (hn : n ≤ t.source.length) :
    Synced input (next_char_n n t) := by
  obtain ⟨hle, hsrc⟩ := hs
  constructor
  · rw [next_char_n_col]
    have := hsrc ▸ hn
    rw [List.length_drop] at this
    omega
  · rw [next_char_n_col, next_char_n_source, hsrc, List.drop_drop]

theorem takeWhile_length_le (p : Char → Bool) (l : List Char) :
    (l.takeWhile p).length ≤ l.length := by
  induction l with
  | nil => simp
  | cons a l ih =>
    simp only [List.takeWhile]
    cases p a
    · simp
    · simpa using Nat.succ_le_succ ih

theorem handle_integer_some {t : Tokenizer} {c : Char} (hc : t.current_char = some c) :
    handle_integer t = some (c :: t.source.takeWhile isDigit09) := by
  unfold handle_integer
  rw [hc]

/-- Every token produced by `tokenize_number` keeps the scanner synced,
carries `token_start_col` as its position, and its lexeme is an
`Integer` or `Float` whose first character is the dispatched character
(`current_char` at entry) or the prepended minus sign. -/
theorem tokenize_number_spec {input : List Char} {positive : Bool}
    {t t' : Tokenizer} {c : Char} {tok : Token}
    (hsync : Synced input t) (hc : t.current_char = some c)
    (h : tokenize_number t positive = (some tok, t')) :
    Synced input t' ∧ tok.position = t.token_start_col ∧
      ∃ s, (tok.token_type = TokenType.Integer s ∨ tok.token_type = TokenType.Float s) ∧
        s.head? = some (if positive then c else '-') := by
  unfold tokenize_number at h
  rw [handle_integer_some hc] at h
  simp only [] at h
  set ds := t.source.takeWhile isDigit09 with hds
  have hlen0 : (c :: ds).length - 1 = ds.length := by simp
  rw [hlen0] at h
  set t1 := next_char_n ds.length t with ht1
  have hs1 : Synced input t1 := by
    rw [ht1]
    exact synced_next_char_n hsync (by rw [hds]; exact takeWhile_length_le _ _)
  have htsc1 : t1.token_start_col = t.token_start_col := by
    rw [ht1]; exact next_char_n_tsc _ _
  rcases hsrc1 : t1.source with _ | ⟨next1, rest1⟩
  · rw [hsrc1] at h
    simp only [] at h
    exact absurd h (by simp)
  · rw [hsrc1] at h
    simp only [] at h
    by_cases hdot : next1 ≠ '.' ∧ next1 ≠ 'e'
    · rw [if_pos hdot] at h
      simp only [Prod.mk.injEq, Option.some.injEq] at h
      obtain ⟨h1, h2⟩ := h
      subst h1
      refine ⟨h2 ▸ hs1, by simpa [Token.new] using htsc1, ?_⟩
      refine ⟨if positive then c :: ds else '-' :: c :: ds, Or.inl (by simp [Token.new]), ?_⟩
      cases positive <;> simp
    · rw [if_neg hdot] at h
      have hcc2 : (next_char t1).2.current_char = some next1 := by
        rw [next_char_cons hsrc1]
      have hs2 : Synced input (next_char t1).2 := (synced_next_char hs1 hsrc1).1
      have htsc2 : (next_char t1).2.token_start_col = t.token_start_col := by
        rw [next_char_tsc]; exact htsc1
      set t2 := (next_char t1).2 with ht2
      rw [handle_integer_some hcc2] at h
      simp only [] at h
      set ds2 := t2.source.takeWhile isDigit09 with hds2
      by_cases hone : (next1 :: ds2).length = 1
      · rw [if_pos hone] at h
        exact absurd h (by simp)
      · rw [if_neg hone] at h
        have hlen2 : (next1 :: ds2).length - 1 = ds2.length := by simp
        rw [hlen2] at h
        set t3 := next_char_n ds2.length t2 with ht3
        have hs3 : Synced input t3 := by
          rw [ht3]
          exact synced_next_char_n hs2 (by rw [hds2]; exact takeWhile_length_le _ _)
        have htsc3 : t3.token_start_col = t.token_start_col := by
          rw [ht3, next_char_n_tsc]; exact htsc2
        rcases hsrc3 : t3.source with _ | ⟨next2, rest2⟩
        · rw [hsrc3] at h
          simp only [] at h
          exact absurd h (by simp)
        · rw [hsrc3] at h
          simp only [] at h
          by_cases he2 : next2 ≠ 'e'
          · rw [if_pos he2] at h
            simp only [Prod.mk.injEq, Option.some.injEq] at h
            obtain ⟨h1, h2⟩ := h
            subst h1
            refine ⟨h2 ▸ hs3, by simpa [Token.new] using htsc3, ?_⟩
            refine ⟨if positive then (c :: ds) ++ next1 :: ds2
                    else '-' :: ((c :: ds) ++ next1 :: ds2), ?_, ?_⟩
            · by_cases hf : next1 = '.' <;> simp [Token.new, hf]
            · cases positive <;> simp
          · rw [if_neg he2] at h
            have hcc4 : (next_char t3).2.current_char = some next2 := by
              rw [next_char_cons hsrc3]
            have hs4 : Synced input (next_char t3).2 := (synced_next_char hs3 hsrc3).1
            have htsc4 : (next_char t3).2.token_start_col = t.token_start_col := by
              rw [next_char_tsc]; exact htsc3
            set t4 := (next_char t3).2 with ht4
            rcases hsrc4 : t4.source with _ | ⟨is_signed, rest4⟩
            · rw [hsrc4] at h
              simp only [] at h
              rw [handle_integer_some hcc4] at h
              simp only [] at h
              set ds5 := t4.source.takeWhile isDigit09 with hds5
              have hlen5 : (next2 :: ds5).length - 1 = ds5.length := by simp
              rw [hlen5] at h
              set t6 := next_char_n ds5.length t4 with ht6
              have hs6 : Synced input t6 := by
                rw [ht6]
                exact synced_next_char_n hs4 (by rw [hds5]; exact takeWhile_length_le _ _)
              have htsc6 : t6.token_start_col = t.token_start_col := by
                rw [ht6, next_char_n_tsc]; exact htsc4
              simp only [Prod.mk.injEq, Option.some.injEq] at h
              obtain ⟨h1, h2⟩ := h
              subst h1
              refine ⟨h2 ▸ hs6, by simpa [Token.new] using htsc6, ?_⟩
              refine ⟨(if positive then (c :: ds) ++ next1 :: ds2
                       else '-' :: ((c :: ds) ++ next1 :: ds2)) ++ next2 :: ds5, ?_, ?_⟩
              · by_cases hf : next1 = '.' <;> simp [Token.new, hf]
              · cases positive <;> simp
            · rw [hsrc4] at h
              simp only [] at h
              by_cases hsign : is_signed = '-' ∨ is_signed = '+'
              · rw [if_pos hsign] at h
                simp only [] at h
                have hcc5 : (next_char t4).2.current_char = some is_signed := by
                  rw [next_char_cons hsrc4]
                have hs5 : Synced input (next_char t4).2 := (synced_next_char hs4 hsrc4).1
                have htsc5 : (next_char t4).2.token_start_col = t.token_start_col := by
                  rw [next_char_tsc]; exact htsc4
                set t5 := (next_char t4).2 with ht5
                rw [handle_integer_some hcc5] at h
                simp only [] at h
                set ds4 := t5.source.takeWhile isDigit09 with hds4
                have hlen4 : (is_signed :: ds4).length - 1 = ds4.length := by simp
                rw [hlen4] at h
                set t6 := next_char_n ds4.length t5 with ht6
                have hs6 : Synced input t6 := by
                  rw [ht6]
                  exact synced_next_char_n hs5 (by rw [hds4]; exact takeWhile_length_le _ _)
                have htsc6 : t6.token_start_col = t.token_start_col := by
                  rw [ht6, next_char_n_tsc]; exact htsc5
                simp only [Prod.mk.injEq, Option.some.injEq] at h
                obtain ⟨h1, h2⟩ := h
                subst h1
                refine ⟨h2 ▸ hs6, by simpa [Token.new] using htsc6, ?_⟩
                refine ⟨((if positive then (c :: ds) ++ next1 :: ds2
                          else '-' :: ((c :: ds) ++ next1 :: ds2)) ++ ['e']) ++ is_signed :: ds4, ?_, ?_⟩
                · by_cases hf : next1 = '.' <;> simp [Token.new, hf]
                · cases positive <;> simp
              · rw [if_neg hsign] at h
                simp only [] at h
                rw [handle_integer_some hcc4] at h
                simp only [] at h
                set ds5 := t4.source.takeWhile isDigit09 with hds5
                have hlen5 : (next2 :: ds5).length - 1 = ds5.length := by simp
                rw [hlen5] at h
                set t6 := next_char_n ds5.length t4 with ht6
                have hs6 : Synced input t6 := by
                  rw [ht6]
                  exact synced_next_char_n hs4 (by rw [hds5]; exact takeWhile_length_le _ _)
                have htsc6 : t6.token_start_col = t.token_start_col := by
                  rw [ht6, next_char_n_tsc]; exact htsc4
                simp only [Prod.mk.injEq, Option.some.injEq] at h
                obtain ⟨h1, h2⟩ := h
                subst h1
                refine ⟨h2 ▸ hs6, by simpa [Token.new] using htsc6, ?_⟩
                refine ⟨(if positive then (c :: ds) ++ next1 :: ds2
                         else '-' :: ((c :: ds) ++ next1 :: ds2)) ++ next2 :: ds5, ?_, ?_⟩
                · by_cases hf : next1 = '.' <;> simp [Token.new, hf]
                · cases positive <;> simp

theorem hex_digits_go_state {input : List Char} (n : Nat) :
    ∀ (escape : List Char) (t : Tokenizer), SyncedOrDead input t →
      SyncedOrDead input (hex_digits_go n escape t).2 ∧
        (hex_digits_go n escape t).2.token_start_col = t.token_start_col := by
  induction n with
  | zero => exact fun escape t hs => ⟨hs, rfl⟩
  | succ n ih =>
    intro escape t hs
    have hsd : SyncedOrDead input (next_char t).2 := synced_or_dead_next_char hs
    have htsc : (next_char t).2.token_start_col = t.token_start_col := next_char_tsc t
    simp only [hex_digits_go]
    rcases hnc : next_char t with ⟨o, t1⟩
    rw [hnc] at hsd htsc
    cases o with
    | none => exact ⟨hsd, htsc⟩
    | some seq_char =>
      simp only []
      by_cases hhex : is_ascii_hexdigit seq_char
      · rw [if_pos hhex]
        obtain ⟨ih1, ih2⟩ := ih (escape ++ [seq_char]) t1 hsd
        exact ⟨ih1, ih2.trans htsc⟩
      · rw [if_neg hhex]
        exact ⟨hsd, htsc⟩

theorem handle_escapes_state {input : List Char} (t : Tokenizer)
    (hs : SyncedOrDead input t) :
    SyncedOrDead input (handle_escapes t).2 ∧
      (handle_escapes t).2.token_start_col = t.token_start_col := by
  have hsd : SyncedOrDead input (next_char t).2 := synced_or_dead_next_char hs
  have htsc : (next_char t).2.token_start_col = t.token_start_col := next_char_tsc t
  simp only [handle_escapes]
  rcases hnc : next_char t with ⟨o, t1⟩
  rw [hnc] at hsd htsc
  cases o with
  | none => exact ⟨hsd, htsc⟩
  | some next =>
    simp only []
    by_cases h1 : (next = '\"' || next = '\\' || next = '/' || next = 'b' || next = 'f' ||
        next = 'n' || next = 'r' || next = 't') = true
    · rw [if_pos h1]
      exact ⟨hsd, htsc⟩
    · rw [if_neg h1]
      by_cases h2 : next = 'u'
      · rw [if_pos h2]
        obtain ⟨g1, g2⟩ := hex_digits_go_state 4 ['\\', 'u'] t1 hsd
        exact ⟨g1, g2.trans htsc⟩
      · rw [if_neg h2]
        exact ⟨hsd, htsc⟩

theorem string_loop_state {input : List Char} (iter : List Char) :
    ∀ (skp : Nat) (sv : List Char) (t : Tokenizer), SyncedOrDead input t →
      SyncedOrDead input (string_loop iter skp sv t).2 ∧
        (string_loop iter skp sv t).2.token_start_col = t.token_start_col := by
  induction iter with
  | nil => exact fun skp sv t hs => ⟨hs, rfl⟩
  | cons c iter ih =>
    intro skp sv t hs
    simp only [string_loop]
    by_cases hctrl : is_control c
    · rw [if_pos hctrl]
      exact ⟨hs, rfl⟩
    · rw [if_neg hctrl]
      by_cases hskip : 0 < skp
      · rw [if_pos hskip]
        exact ih _ _ _ hs
      · rw [if_neg hskip]
        by_cases hbs : c = '\\'
        · rw [if_pos hbs]
          have hsd1 : SyncedOrDead input (next_char t).2 := synced_or_dead_next_char hs
          have htsc1 : (next_char t).2.token_start_col = t.token_start_col := next_char_tsc t
          obtain ⟨he1, he2⟩ := handle_escapes_state (next_char t).2 hsd1
          rcases hhe : handle_escapes (next_char t).2 with ⟨o, t2⟩
          rw [hhe] at he1 he2
          cases o with
          | none =>
            obtain ⟨g1, g2⟩ := ih skp sv t2 he1
            exact ⟨g1, g2.trans (he2.trans htsc1)⟩
          | some escape =>
            simp only []
            obtain ⟨g1, g2⟩ := ih (escape.length - 1) (sv ++ escape) t2 he1
            exact ⟨g1, g2.trans (he2.trans htsc1)⟩
        · rw [if_neg hbs]
          by_cases hq : c ≠ '\"'
          · rw [if_pos hq]
            have hsd1 : SyncedOrDead input (next_char t).2 := synced_or_dead_next_char hs
            obtain ⟨g1, g2⟩ := ih skp (sv ++ [c]) (next_char t).2 hsd1
            exact ⟨g1, g2.trans (next_char_tsc t)⟩
          · rw [if_neg hq]
            exact ⟨hs, rfl⟩

/-- Every token produced by `tokenize_string` keeps the scanner synced,
carries `token_start_col` (the column of the opening quote) as its
position, and is a `String` token. -/
theorem tokenize_string_spec {input : List Char} {t t' : Tokenizer} {tok : Token}
    (hsync : Synced input t) (h : tokenize_string t = (some tok, t')) :
    Synced input t' ∧ tok.position = t.token_start_col ∧
      ∃ s, tok.token_type = TokenType.String s := by
  unfold tokenize_string at h
  obtain ⟨hl1, hl2⟩ := @string_loop_state input t.source 0 [] t (Or.inl hsync)
  rcases hloop : string_loop t.source 0 [] t with ⟨res, t1⟩
  rw [hloop] at h hl1 hl2
  cases res with
  | failed => exact absurd h (by simp)
  | finished sv =>
    simp only [] at h
    rcases hsrc1 : t1.source with _ | ⟨d, rest1⟩
    · rw [next_char_nil hsrc1] at h
      exact absurd h (by simp)
    · have hs1 : Synced input t1 := by
        rcases hl1 with hl1 | hdead
        · exact hl1
        · rw [hdead] at hsrc1; exact absurd hsrc1 (by simp)
      rw [next_char_cons hsrc1] at h
      simp only [] at h
      by_cases hq : d = '\"'
      · rw [if_pos hq] at h
        simp only [Prod.mk.injEq, Option.some.injEq] at h
        obtain ⟨h1, h2⟩ := h
        subst h1
        have hs2 : Synced input (next_char t1).2 := (synced_next_char hs1 hsrc1).1
        rw [next_char_cons hsrc1] at hs2
        refine ⟨h2 ▸ hs2, ?_, ⟨sv, by simp [Token.new]⟩⟩
        simpa [Token.new] using hl2
      · rw [if_neg hq] at h
        exact absurd h (by simp)

theorem skip_whitespaces_go_spec {input : List Char} :
    ∀ (l : List Char) (t : Tokenizer) (c : Char) (t1 : Tokenizer),
      l = t.source → Synced input t → skip_whitespaces_go l t = (some c, t1) →
      Synced input t1 ∧ 1 ≤ t1.current_col ∧ input[t1.current_col - 1]? = some c ∧
        isWs c = false ∧ t1.current_char = some c ∧
        t1.token_start_col = t.token_start_col ∧
        t1.current_col = t.current_col + ((t.source.takeWhile isWs).length + 1) := by
  intro l
  induction l with
  | nil =>
    intro t c t1 hl hs h
    rw [skip_whitespaces_go, next_char_nil hl.symm] at h
    exact absurd h (by simp)
  | cons a l ih =>
    intro t c t1 hl hs h
    rw [skip_whitespaces_go, next_char_cons hl.symm] at h
    simp only [] at h
    obtain ⟨hs1, hget1⟩ := synced_next_char hs hl.symm
    rw [next_char_cons hl.symm] at hs1
    by_cases hw : isWs a = true
    · rw [if_pos hw] at h
      obtain ⟨g1, g2, g3, g4, g5, g6, g7⟩ := ih _ c t1 rfl hs1 h
      refine ⟨g1, g2, g3, g4, g5, ?_, ?_⟩
      · rw [g6]
      · rw [g7, ← hl]
        simp only [List.takeWhile, hw, List.length_cons]
        omega
    · rw [if_neg hw] at h
      simp only [Prod.mk.injEq, Option.some.injEq] at h
      obtain ⟨h1, h2⟩ := h
      subst h1
      subst h2
      refine ⟨hs1, by simp, by simpa using hget1, by simpa using hw, rfl, rfl, ?_⟩
      have hwf : isWs a = false := by simpa using hw
      rw [← hl]
      simp only [List.takeWhile, hwf, List.length_nil]

theorem skip_whitespaces_spec {input : List Char} {t t1 : Tokenizer} {c : Char}
    (hs : Synced input t) (h : skip_whitespaces t = (some c, t1)) :
    Synced input t1 ∧ 1 ≤ t1.current_col ∧ input[t1.current_col - 1]? = some c ∧
      isWs c = false ∧ t1.current_char = some c ∧
      t1.token_start_col = t.token_start_col ∧
      t1.current_col = t.current_col + ((t.source.takeWhile isWs).length + 1) :=
  skip_whitespaces_go_spec t.source t c t1 rfl hs h

/-- The character a token begins with, as recorded by the token itself:
structural tokens begin with their punctuation character, number tokens
with the first character of their lexeme, and string tokens with the
opening quote. -/
def HeadMatch : TokenType → Char → Prop
  | .ObjectStart, c => c = '{'
  | .ObjectEnd, c => c = '}'
  | .ArrayStart, c => c = '['
  | .ArrayEnd, c => c = ']'
  | .Comma, c => c = ','
  | .Colon, c => c = ':'
  | .Integer s, c => s.head? = some c
  | .Float s, c => s.head? = some c
  | .String _, c => c = '\"'

/-- Every token produced by `next_token` from a synced state carries as
its `position` exactly the one-based input index of the first character
it consumed: the `current_col` characters consumed before this step plus
the whitespace run skipped at the front of the remaining source plus
one.  The input character at that index is the character the token
begins with. -/
theorem next_token_spec {input : List Char} {t t' : Tokenizer} {tok : Token}
    (hsync : Synced input t) (h : next_token t = (some tok, t')) :
    Synced input t' ∧
      tok.position = t.current_col + ((t.source.takeWhile isWs).length + 1) ∧
      ∃ c, input[tok.position - 1]? = some c ∧ HeadMatch tok.token_type c := by
  unfold next_token at h
  rcases hsw : skip_whitespaces t with ⟨o, t1⟩
  rw [hsw] at h
  cases o with
  | none => exact absurd h (by simp)
  | some ch =>
    obtain ⟨hs1, hcol1, hget1, hw1, hcc1, htsc1, hcex⟩ := skip_whitespaces_spec hsync hsw
    simp only [] at h
    by_cases h1 : ch = '{'
    · rw [if_pos h1] at h
      simp only [Prod.mk.injEq, Option.some.injEq] at h
      obtain ⟨hh1, hh2⟩ := h
      subst hh1
      exact ⟨hh2 ▸ hs1, hcex, ch, hget1, h1⟩
    · rw [if_neg h1] at h
      by_cases h2 : ch = '}'
      · rw [if_pos h2] at h
        simp only [Prod.mk.injEq, Option.some.injEq] at h
        obtain ⟨hh1, hh2⟩ := h
        subst hh1
        exact ⟨hh2 ▸ hs1, hcex, ch, hget1, h2⟩
      · rw [if_neg h2] at h
        by_cases h3 : ch = '['
        · rw [if_pos h3] at h
          simp only [Prod.mk.injEq, Option.some.injEq] at h
          obtain ⟨hh1, hh2⟩ := h
          subst hh1
          exact ⟨hh2 ▸ hs1, hcex, ch, hget1, h3⟩
        · rw [if_neg h3] at h
          by_cases h4 : ch = ']'
          · rw [if_pos h4] at h
            simp only [Prod.mk.injEq, Option.some.injEq] at h
            obtain ⟨hh1, hh2⟩ := h
            subst hh1
            exact ⟨hh2 ▸ hs1, hcex, ch, hget1, h4⟩
          · rw [if_neg h4] at h
            by_cases h5 : ch = ':'
            · rw [if_pos h5] at h
              simp only [Prod.mk.injEq, Option.some.injEq] at h
              obtain ⟨hh1, hh2⟩ := h
              subst hh1
              exact ⟨hh2 ▸ hs1, hcex, ch, hget1, h5⟩
            · rw [if_neg h5] at h
              by_cases h6 : ch = ','
              · rw [if_pos h6] at h
                simp only [Prod.mk.injEq, Option.some.injEq] at h
                obtain ⟨hh1, hh2⟩ := h
                subst hh1
                exact ⟨hh2 ▸ hs1, hcex, ch, hget1, h6⟩
              · rw [if_neg h6] at h
                by_cases h7 : isDigit09 ch
                · rw [if_pos h7] at h
                  have hsd : Synced input { t1 with token_start_col := t1.current_col } := hs1
                  have hcd : ({ t1 with token_start_col := t1.current_col }).current_char
                      = some ch := hcc1
                  obtain ⟨g1, g2, s, g3, g4⟩ := tokenize_number_spec hsd hcd h
                  refine ⟨g1, ?_, ch, ?_, ?_⟩
                  · rw [g2]; exact hcex
                  · rw [g2]; exact hget1
                  · rcases g3 with g3 | g3 <;> rw [g3] <;> simpa using g4
                · rw [if_neg h7] at h
                  by_cases h8 : ch = '\"'
                  · rw [if_pos h8] at h
                    have hsd : Synced input { t1 with token_start_col := t1.current_col } := hs1
                    obtain ⟨g1, g2, s, g3⟩ := tokenize_string_spec hsd h
                    refine ⟨g1, ?_, ch, ?_, ?_⟩
                    · rw [g2]; exact hcex
                    · rw [g2]; exact hget1
                    · rw [g3]; exact h8
                  · rw [if_neg h8] at h
                    by_cases h9 : ch = '-'
                    · rw [if_pos h9] at h
                      rcases hsrc2 : ({ t1 with token_start_col := t1.current_col }).source
                        with _ | ⟨d, rest2⟩
                      · rw [next_char_nil hsrc2] at h
                        exact absurd h (by simp)
                      · rw [next_char_cons hsrc2] at h
                        simp only [] at h
                        have hsd : Synced input { t1 with token_start_col := t1.current_col } := hs1
                        have hs3 := (synced_next_char hsd hsrc2).1
                        rw [next_char_cons hsrc2] at hs3
                        obtain ⟨g1, g2, s, g3, g4⟩ := tokenize_number_spec hs3 rfl h
                        refine ⟨g1, ?_, ch, ?_, ?_⟩
                        · rw [g2]; exact hcex
                        · rw [g2]; exact hget1
                        · rcases g3 with g3 | g3 <;> rw [g3] <;>
                            simp only [HeadMatch] <;> rw [h9] <;> simpa using g4
                    · rw [if_neg h9] at h
                      exact absurd h (by simp)

theorem next_char_src_le (t : Tokenizer) :
    (next_char t).2.source.length ≤ t.source.length := by
  rw [next_char_source]
  cases t.source <;> simp

theorem next_char_n_src_le (n : Nat) (t : Tokenizer) :
    (next_char_n n t).source.length ≤ t.source.length := by
  rw [next_char_n_source, List.length_drop]
  omega

theorem tokenize_number_src_le (t : Tokenizer) (positive : Bool) :
    (tokenize_number t positive).2.source.length ≤ t.source.length := by
  unfold tokenize_number
  simp only []
  repeat' split
  all_goals
    simp only [next_char_n_source, next_char_source, List.length_drop, List.length_tail]
  all_goals omega

theorem hex_digits_go_src_le (n : Nat) :
    ∀ (escape : List Char) (t : Tokenizer),
      (hex_digits_go n escape t).2.source.length ≤ t.source.length := by
  induction n with
  | zero => exact fun escape t => Nat.le_refl _
  | succ n ih =>
    intro escape t
    simp only [hex_digits_go]
    have hle := next_char_src_le t
    rcases hnc : next_char t with ⟨o, t1⟩
    rw [hnc] at hle
    cases o with
    | none => exact hle
    | some seq_char =>
      simp only []
      split
      · exact Nat.le_trans (ih _ _) hle
      · exact hle

theorem handle_escapes_src_le (t : Tokenizer) :
    (handle_escapes t).2.source.length ≤ t.source.length := by
  simp only [handle_escapes]
  have hle := next_char_src_le t
  rcases hnc : next_char t with ⟨o, t1⟩
  rw [hnc] at hle
  cases o with
  | none => exact hle
  | some next =>
    simp only []
    split
    · exact hle
    · split
      · exact Nat.le_trans (hex_digits_go_src_le 4 _ _) hle
      · exact hle

theorem string_loop_src_le (iter : List Char) :
    ∀ (skp : Nat) (sv : List Char) (t : Tokenizer),
      (string_loop iter skp sv t).2.source.length ≤ t.source.length := by
  induction iter with
  | nil => exact fun skp sv t => Nat.le_refl _
  | cons c iter ih =>
    intro skp sv t
    simp only [string_loop]
    split
    · exact Nat.le_refl _
    · split
      · exact ih _ _ _
      · split
        · have hle := next_char_src_le t
          have hesc := handle_escapes_src_le (next_char t).2
          rcases hhe : handle_escapes (next_char t).2 with ⟨o, t2⟩
          rw [hhe] at hesc
          cases o with
          | none => exact Nat.le_trans (ih _ _ _) (Nat.le_trans hesc hle)
          | some escape =>
            simp only []
            exact Nat.le_trans (ih _ _ _) (Nat.le_trans hesc hle)
        · split
          · exact Nat.le_trans (ih _ _ _) (next_char_src_le t)
          · exact Nat.le_refl _

theorem tokenize_string_src_le (t : Tokenizer) :
    (tokenize_string t).2.source.length ≤ t.source.length := by
  unfold tokenize_string
  have hloop := string_loop_src_le t.source 0 [] t
  rcases hl : string_loop t.source 0 [] t with ⟨res, t1⟩
  rw [hl] at hloop
  cases res with
  | failed => exact hloop
  | finished sv =>
    simp only []
    have hnc := next_char_src_le t1
    rcases hn : next_char t1 with ⟨o, t2⟩
    rw [hn] at hnc
    cases o with
    | none => exact Nat.le_trans hnc hloop
    | some c =>
      simp only []
      split
      · exact Nat.le_trans hnc hloop
      · exact Nat.le_trans hnc hloop

theorem skip_whitespaces_go_shrinks :
    ∀ (l : List Char) (t : Tokenizer) (c : Char) (t1 : Tokenizer),
      l = t.source → skip_whitespaces_go l t = (some c, t1) →
      t1.source.length < t.source.length := by
  intro l
  induction l with
  | nil =>
    intro t c t1 hl h
    rw [skip_whitespaces_go, next_char_nil hl.symm] at h
    exact absurd h (by simp)
  | cons a l ih =>
    intro t c t1 hl h
    rw [skip_whitespaces_go, next_char_cons hl.symm] at h
    simp only [] at h
    by_cases hw : isWs a = true
    · rw [if_pos hw] at h
      have := ih _ c t1 rfl h
      simp only [] at this
      rw [← hl]
      simpa using Nat.lt_succ_of_lt this
    · rw [if_neg hw] at h
      simp only [Prod.mk.injEq, Option.some.injEq] at h
      obtain ⟨h1, h2⟩ := h
      subst h2
      rw [← hl]
      simp

/-- A successful `next_token` consumes at least one character of the
source; this justifies the iteration budget used by `tokenize`. -/
theorem next_token_shrinks {t t' : Tokenizer} {tok : Token}
    (h : next_token t = (some tok, t')) :
    t'.source.length < t.source.length := by
  unfold next_token at h
  rcases hsw : skip_whitespaces t with ⟨o, t1⟩
  rw [hsw] at h
  cases o with
  | none => exact absurd h (by simp)
  | some ch =>
    have hlt : t1.source.length < t.source.length :=
      skip_whitespaces_go_shrinks t.source t ch t1 rfl hsw
    simp only [] at h
    repeat' split at h
    · injection h with h1 h2; subst h2; exact hlt
    · injection h with h1 h2; subst h2; exact hlt
    · injection h with h1 h2; subst h2; exact hlt
    · injection h with h1 h2; subst h2; exact hlt
    · injection h with h1 h2; subst h2; exact hlt
    · injection h with h1 h2; subst h2; exact hlt
    · have hle := tokenize_number_src_le { t1 with token_start_col := t1.current_col } true
      rw [h] at hle
      exact Nat.lt_of_le_of_lt hle hlt
    · have hle := tokenize_string_src_le { t1 with token_start_col := t1.current_col }
      rw [h] at hle
      exact Nat.lt_of_le_of_lt hle hlt
    · exact absurd h (by simp)
    · rename_i c2 t2 heq
      have hle2 := next_char_src_le { t1 with token_start_col := t1.current_col }
      rw [heq] at hle2
      have hle3 := tokenize_number_src_le t2 false
      rw [h] at hle3
      exact Nat.lt_of_le_of_lt (Nat.le_trans hle3 hle2) hlt
    · exact absurd h (by simp)

/-- The `k`-th token of the loop is the one `next_token` produces at the
`k`-th run state, and that state is still synced with the input. -/
theorem tokenize_loop_run {input : List Char} :
    ∀ (fuel : Nat) (t : Tokenizer) (k : Nat) (tok : Token), Synced input t →
      (tokenize_loop fuel t)[k]? = some tok →
      Synced input (run_state t k) ∧
        next_token (run_state t k) = (some tok, run_state t (k + 1)) := by
  intro fuel
  induction fuel with
  | zero =>
    intro t k tok _ htok
    simp [tokenize_loop] at htok
  | succ fuel ih =>
    intro t k tok hs htok
    rw [tokenize_loop] at htok
    rcases hnt : next_token t with ⟨o, t1⟩
    rw [hnt] at htok
    cases o with
    | none => simp at htok
    | some tk =>
      cases k with
      | zero =>
        simp only [List.getElem?_cons_zero, Option.some.injEq] at htok
        subst htok
        refine ⟨hs, ?_⟩
        simp only [run_state]
        rw [hnt]
      | succ k =>
        simp only [List.getElem?_cons_succ] at htok
        have hs1 : Synced input t1 := (next_token_spec hs hnt).1
        have hrec := ih t1 k tok hs1 htok
        simp only [run_state]
        rw [hnt]
        exact hrec

/-! ## The claims -/

/-- C1: exponent classification on the five standalone inputs from the
specification.  The four lexemes with a fractional part each yield
exactly one `Float` token as claimed, but the standalone input `1e2`
yields no token at all (the scanner refuses to emit a number token when
the input ends right after the lexeme), instead of the claimed
`Integer("1e2")`. -/
theorem c1_exponent_classification_eval :
    tokenize (Tokenizer.new ("1e2".toList)) = [] ∧
    tokenize (Tokenizer.new ("1.0e2".toList)) =
      [Token.new (TokenType.Float ("1.0e2".toList)) 1] ∧
    tokenize (Tokenizer.new ("2.0879878e243".toList)) =
      [Token.new (TokenType.Float ("2.0879878e243".toList)) 1] ∧
    tokenize (Tokenizer.new ("-32.928e-54".toList)) =
      [Token.new (TokenType.Float ("-32.928e-54".toList)) 1] ∧
    tokenize (Tokenizer.new ("-32.928e+54".toList)) =
      [Token.new (TokenType.Float ("-32.928e+54".toList)) 1] := by
  refine ⟨?_, ?_, ?_, ?_, ?_⟩ <;> decide

/-- C2: the tokenizer yields the empty token sequence on every
non-empty input consisting only of ASCII digits, because after
recognizing the digit run it looks ahead for a following character and
returns no token when the input has ended; the claimed single `Integer`
token is never produced.  By contrast a trailing delimiter makes it
work: `"5 "` yields `Integer("5")`. -/
theorem c2_all_digits_yields_empty (ds : List Char)
    (hne : ds ≠ []) (hdig : ∀ c ∈ ds, isDigit09 c = true) :
    tokenize (Tokenizer.new ds) = [] := by
  rcases ds with _ | ⟨d, rest⟩
  · exact absurd rfl hne
  · have hd : isDigit09 d = true := hdig d (by simp)
    have hrest : rest.takeWhile isDigit09 = rest :=
      List.takeWhile_eq_self_iff.mpr (fun c hc => hdig c (by simp [hc]))
    have hnws : isWs d = false := by
      rcases hdig d (by simp) with h
      simp only [isDigit09, Bool.and_eq_true, decide_eq_true_eq] at h
      simp only [isWs, Bool.or_eq_false_iff, decide_eq_false_iff_not]
      refine ⟨⟨⟨?_, ?_⟩, ?_⟩, ?_⟩ <;> rintro rfl <;> revert h <;> decide
    have hsw : skip_whitespaces (Tokenizer.new (d :: rest)) =
        (some d, { source := rest, current_col := 1, current_line :=
          if d = '\n' then 2 else 1, token_start_col := 0, current_char := some d }) := by
      rw [skip_whitespaces]
      show skip_whitespaces_go (d :: rest) _ = _
      rw [skip_whitespaces_go, next_char_cons rfl]
      simp [hnws, Tokenizer.new]
    have hnt : next_token (Tokenizer.new (d :: rest)) =
        (none, next_char_n rest.length
          { source := rest, current_col := 1, current_line :=
              if d = '\n' then 2 else 1, token_start_col := 1, current_char := some d }) := by
      unfold next_token
      rw [hsw]
      simp only []
      have hforbidden : d ≠ '{' ∧ d ≠ '}' ∧ d ≠ '[' ∧ d ≠ ']' ∧ d ≠ ':' ∧ d ≠ ',' := by
        refine ⟨?_, ?_, ?_, ?_, ?_, ?_⟩ <;> rintro rfl <;> revert hd <;> decide
      obtain ⟨f1, f2, f3, f4, f5, f6⟩ := hforbidden
      rw [if_neg f1, if_neg f2, if_neg f3, if_neg f4, if_neg f5, if_neg f6, if_pos hd]
      unfold tokenize_number
      rw [handle_integer_some rfl]
      simp only [hrest]
      have hlen : (d :: rest).length - 1 = rest.length := by simp
      rw [hlen]
      have hsrc : (next_char_n rest.length
          ({ source := rest, current_col := 1, current_line :=
              if d = '\n' then 2 else 1, token_start_col := 1,
              current_char := some d } : Tokenizer)).source = [] := by
        rw [next_char_n_source]
        simp
      rw [hsrc]
    rw [tokenize]
    show tokenize_loop ((d :: rest).length + 1) _ = []
    rw [tokenize_loop, hnt]

/-- C2 witness: the single digit `5` is a non-empty all-digit input, and
tokenizing it yields the empty sequence. -/
theorem c2_all_digits_yields_empty_witness :
    tokenize (Tokenizer.new ("5".toList)) = [] :=
  c2_all_digits_yields_empty ("5".toList) (by decide) (by decide)

/-- C3: an exponent marker with zero following digits is not rejected
when the literal has a fractional part: `1.0e` yields `Float("1.0e")`
and `1.0e+` yields `Float("1.0e+")`, contradicting the claimed lexical
failure.  (Without a fractional part the claim does hold: `1e` and
`1e+` yield no token.) -/
theorem c3_empty_exponent_eval :
    tokenize (Tokenizer.new ("1.0e".toList)) =
      [Token.new (TokenType.Float ("1.0e".toList)) 1] ∧
    tokenize (Tokenizer.new ("1.0e+".toList)) =
      [Token.new (TokenType.Float ("1.0e+".toList)) 1] ∧
    tokenize (Tokenizer.new ("1e".toList)) = [] ∧
    tokenize (Tokenizer.new ("1e+".toList)) = [] := by
  refine ⟨?_, ?_, ?_, ?_⟩ <;> decide

/-- C4: a value-starting minus followed by a non-digit is not rejected:
the input `-a,` yields `Integer("-a")` at column 1 (and then a comma
token), because `handle_integer` never checks that the character after
the minus is a digit.  Only a minus at the very end of the input yields
no token. -/
theorem c4_minus_nondigit_eval :
    tokenize (Tokenizer.new ("-a,".toList)) =
      [Token.new (TokenType.Integer ("-a".toList)) 1, Token.new TokenType.Comma 3] ∧
    tokenize (Tokenizer.new ("-".toList)) = [] := by
  refine ⟨?_, ?_⟩ <;> decide

/-- C5: an invalid escape does not make the string scan fail; the
failure of `handle_escapes` is swallowed and scanning continues with the
cloned iterator out of step with the cursor.  On the five-character
input consisting of a quote, backslash, `q`, quote, quote this produces
the token `String("q")` at column 1, contradicting the claim that no
`String` token is produced. -/
theorem c5_invalid_escape_eval :
    tokenize (Tokenizer.new ['\"', '\\', 'q', '\"', '\"']) =
      [Token.new (TokenType.String ['q']) 1] ∧
    tokenize (Tokenizer.new ['\"', '\\', 'q', '\"']) = [] := by
  refine ⟨?_, ?_⟩ <;> decide

/-- C6: the worked object example tokenizes to exactly the nine claimed
tokens at the claimed columns, with both escape sequences preserved as
literal two-character substrings in the string value. -/
theorem c6_simple_object_tokens :
    tokenize (Tokenizer.new
      ("\x7b\"coolness_factor\":2,\"description\":\"This is kinda \\\"cool\\\"!\"\x7d".toList)) =
    [Token.new TokenType.ObjectStart 1,
     Token.new (TokenType.String ("coolness_factor".toList)) 2,
     Token.new TokenType.Colon 19,
     Token.new (TokenType.Integer ("2".toList)) 20,
     Token.new TokenType.Comma 21,
     Token.new (TokenType.String ("description".toList)) 22,
     Token.new TokenType.Colon 35,
     Token.new (TokenType.String ("This is kinda \\\"cool\\\"!".toList)) 36,
     Token.new TokenType.ObjectEnd 61] := by
  decide

/-- C7: tokenizing the input `5.` (a digit followed by a trailing dot
with no following digit) yields the empty token sequence. -/
theorem c7_trailing_dot_empty :
    tokenize (Tokenizer.new ("5.".toList)) = [] := by
  decide

theorem string_loop_ctrl_failed :
    ∀ (pre : List Char) (c : Char) (post : List Char) (skp : Nat) (sv : List Char)
      (t : Tokenizer), '\"' ∉ pre → is_control c = true →
      (string_loop (pre ++ c :: post) skp sv t).1 = StringScan.failed := by
  intro pre
  induction pre with
  | nil =>
    intro c post skp sv t _ hctrl
    simp only [List.nil_append, string_loop]
    rw [if_pos hctrl]
  | cons a pre ih =>
    intro c post skp sv t hnq hctrl
    have hnq1 : a ≠ '\"' := fun he => hnq (by simp [he])
    have hnq2 : '\"' ∉ pre := fun hm => hnq (by simp [hm])
    simp only [List.cons_append, string_loop]
    by_cases hc : is_control a = true
    · rw [if_pos hc]
    · rw [if_neg hc]
      by_cases hskip : 0 < skp
      · rw [if_pos hskip]
        exact ih _ _ _ _ _ hnq2 hctrl
      · rw [if_neg hskip]
        by_cases hbs : a = '\\'
        · rw [if_pos hbs]
          rcases hhe : handle_escapes (next_char t).2 with ⟨o, t2⟩
          cases o with
          | none =>
            simp only [hhe]
            exact ih _ _ _ _ _ hnq2 hctrl
          | some escape =>
            simp only [hhe]
            exact ih _ _ _ _ _ hnq2 hctrl
        · rw [if_neg hbs, if_pos hnq1]
          exact ih _ _ _ _ _ hnq2 hctrl

/-- Supporting result for the control-character rule: if the quoted body
that follows an opening quote contains a raw control character with no
quote character before it, the string scan is a lexical failure and
`next_token` produces no token at all.  (With a quote character — for
example an escaped quote — between an invalid escape and the control
character, the desynchronized scan can terminate early and still emit a
token.) -/
theorem control_char_before_quote_fails (t : Tokenizer) (pre : List Char) (c : Char)
    (post : List Char) (hsrc : t.source = '\"' :: (pre ++ c :: post))
    (hnq : '\"' ∉ pre) (hctrl : is_control c = true) :
    (next_token t).1 = none := by
  have hsw : skip_whitespaces t = (some '\"',
      { t with source := pre ++ c :: post,
               current_col := t.current_col + 1,
               current_char := some '\"' }) := by
    rw [skip_whitespaces]
    rw [hsrc, skip_whitespaces_go, next_char_cons hsrc]
    simp only []
    rw [if_neg (by decide)]
    simp
  unfold next_token
  rw [hsw]
  simp only []
  rw [if_neg (by decide), if_neg (by decide), if_neg (by decide), if_neg (by decide),
    if_neg (by decide), if_neg (by decide), if_neg (by decide)]
  simp only [if_true]
  unfold tokenize_string
  simp only []
  have hfail := string_loop_ctrl_failed pre c post 0 []
      ({ t with source := pre ++ c :: post,
                current_col := t.current_col + 1,
                current_char := some '\"',
                token_start_col := t.current_col + 1 } : Tokenizer) hnq hctrl
  rcases hsl : string_loop (pre ++ c :: post) 0 []
      ({ t with source := pre ++ c :: post,
                current_col := t.current_col + 1,
                current_char := some '\"',
                token_start_col := t.current_col + 1 } : Tokenizer)
    with ⟨res, t1⟩
  rw [hsl] at hfail
  simp only [] at hfail
  subst hfail
  rfl

/-- C8: a raw control character inside a quoted string body does not
always make the string scan fail.  On the seven-character input quote,
backslash, `q`, backslash, quote, U+0001, quote — whose body up to its
closing quote (the quote at index 4 is escaped) contains the raw
control character U+0001 — the rejected escape of `q` is swallowed, the
desynchronized scan breaks at the escaped quote without ever visiting
the control character, and the token `String("q")` at column 1 is
emitted, contradicting the claimed lexical failure.  The second
conjunct shows the behaviour the claim describes on its own example, a
plain body holding a raw newline: no token is produced. -/
theorem c8_control_char_eval :
    tokenize (Tokenizer.new ['\"', '\\', 'q', '\\', '\"', '\x01', '\"']) =
      [Token.new (TokenType.String ['q']) 1] ∧
    tokenize (Tokenizer.new ("\"ab\ncd\"".toList)) = [] := by
  refine ⟨?_, ?_⟩ <;> decide

/-- C9: the position of every emitted token equals the one-based index,
counted over all characters consumed since the start of tokenization
(with no reset at newlines), of the first character the token consumed.
For the token produced at step `k` of the run, the state
`run_state (Tokenizer.new input) k` at which its scan starts has
consumed exactly the first `current_col` characters of the input (the
first two conjuncts: `source` is precisely the rest of the input), the
scan then skips exactly the whitespace run at the front of that
remaining source, and the recorded `position` equals `current_col` plus
the length of that whitespace run plus one — which is therefore the
global one-based input index of the first character the token consumed.
The final conjunct checks that the input character at that index is the
character the token begins with (its punctuation mark, the first
character of its number lexeme, or the opening quote of a string). -/
theorem c9_position_exact (input : List Char) (k : Nat) (tok : Token)
    (htok : (tokenize (Tokenizer.new input))[k]? = some tok) :
    (run_state (Tokenizer.new input) k).current_col ≤ input.length ∧
    (run_state (Tokenizer.new input) k).source
      = input.drop (run_state (Tokenizer.new input) k).current_col ∧
    tok.position = (run_state (Tokenizer.new input) k).current_col
      + (((run_state (Tokenizer.new input) k).source.takeWhile isWs).length + 1) ∧
    ∃ c, input[tok.position - 1]? = some c ∧ HeadMatch tok.token_type c := by
  rw [tokenize] at htok
  obtain ⟨hsk, hlink⟩ := tokenize_loop_run _ _ k tok (synced_new input) htok
  obtain ⟨hs2, hpos, hex⟩ := next_token_spec hsk hlink
  exact ⟨hsk.1, hsk.2, hpos, hex⟩

/-- C9 witness: in the input `[5 `, the token produced at step 1 is the
integer at position 2: exactly one character was consumed before its
scan, no whitespace precedes it, and the input character at one-based
index 2 is the digit it begins with. -/
theorem c9_position_exact_witness :
    (run_state (Tokenizer.new ("[5 ".toList)) 1).current_col ≤ ("[5 ".toList).length ∧
    (run_state (Tokenizer.new ("[5 ".toList)) 1).source
      = ("[5 ".toList).drop (run_state (Tokenizer.new ("[5 ".toList)) 1).current_col ∧
    (Token.new (TokenType.Integer ['5']) 2).position
      = (run_state (Tokenizer.new ("[5 ".toList)) 1).current_col
        + (((run_state (Tokenizer.new ("[5 ".toList)) 1).source.takeWhile isWs).length + 1) ∧
    ∃ c, ("[5 ".toList)[(Token.new (TokenType.Integer ['5']) 2).position - 1]? = some c ∧
      HeadMatch (Token.new (TokenType.Integer ['5']) 2).token_type c :=
  c9_position_exact ("[5 ".toList) 1 (Token.new (TokenType.Integer ['5']) 2) (by decide)

/-- C10: whenever the scanner is about to read two consecutive quote
characters, `next_token` emits the `String` token with the empty value,
positioned at the column of the opening quote. -/
theorem c10_empty_string_token (t : Tokenizer) (rest : List Char)
    (hsrc : t.source = '\"' :: '\"' :: rest) :
    (next_token t).1 = some (Token.new (TokenType.String []) (t.current_col + 1)) := by
  have hsw : skip_whitespaces t = (some '\"',
      { t with source := '\"' :: rest,
               current_col := t.current_col + 1,
               current_char := some '\"' }) := by
    rw [skip_whitespaces]
    rw [hsrc, skip_whitespaces_go, next_char_cons hsrc]
    simp only []
    rw [if_neg (by decide)]
    simp
  unfold next_token
  rw [hsw]
  simp only []
  rw [if_neg (by decide), if_neg (by decide), if_neg (by decide), if_neg (by decide),
    if_neg (by decide), if_neg (by decide), if_neg (by decide)]
  simp only [if_true]
  unfold tokenize_string
  simp only [string_loop]
  rw [if_neg (by decide), if_neg (by decide), if_neg (by decide), if_neg (by decide)]
  simp only []
  rw [next_char_cons rfl]
  simp

/-- C10 witness: the whole input consisting of two quote characters
yields the empty-string token at column 1. -/
theorem c10_empty_string_token_witness :
    (next_token (Tokenizer.new ['\"', '\"'])).1 =
      some (Token.new (TokenType.String []) 1) :=
  c10_empty_string_token (Tokenizer.new ['\"', '\"']) [] rfl

end Hdjson
